import Mathlib

/-!
Verification of the marching-cubes isosurface extraction core
(`bevy_marching_cubes`): a shallow embedding of the repository's source
(`src/chunk.rs`, `src/interp.rs`, `src/utils.rs`, `src/mesh.rs`,
`src/plugin.rs`) together with theorems settling the spec's claims.

Scalar values (`f32`/`f64` in the source) are embedded as `ℚ`: every
arithmetic operation the extraction pipeline performs (add, sub, mul, div,
comparisons, sums of distinct powers of two in `get_state`) is exact on the
inputs the claims quantify over, so rational arithmetic is a faithful model.
The mesh normal computation (`src/mesh.rs`) needs square roots and is
embedded over `ℝ` in its own section.
-/

namespace MarchingCubes

/-- `types.rs`: a 3-component point (`nalgebra::Point3<Value>`), used by the
extraction pipeline. Coordinate iteration order is `x, y, z`. -/
structure Pt where
  x : ℚ
  y : ℚ
  z : ℚ
deriving DecidableEq, Repr

/-- `error.rs`: `MarchingCubesError`. -/
inductive MarchingCubesError where
  | invalidCorners
  | invalidIndex
deriving DecidableEq, Repr

/-- `interp.rs::find_t`: interpolation factor at which the linear function
through `v0` and `v1` equals `iso_val`. -/
def find_t (v0 v1 iso_val : ℚ) : ℚ :=
  (iso_val - v0) / (v1 - v0)

/-- `interp.rs::lerp`: linear interpolation between `a` and `b` by `t`. -/
def lerp (a b t : ℚ) : ℚ :=
  a + (b - a) * t

/-- `interp.rs::interpolate_points`: component-wise lerp of two points,
collected (in `x, y, z` iteration order) into a `Vec`. -/
def interpolate_points (p0 p1 : Pt) (t : ℚ) : List ℚ :=
  [lerp p0.x p1.x t, lerp p0.y p1.y t, lerp p0.z p1.z t]

/-- `utils.rs::state_function`: `1.0` if the value is `≤ threshold`
("inside"), else `0.0`. -/
def state_function (v threshold : ℚ) : ℚ :=
  if v ≤ threshold then 1 else 0

/-- `utils.rs::get_state` loop: starting from `final_state = 0, i = 1`,
each corner state `s` contributes `s * i`, and `i` doubles.  The
accumulator pair is `(final_state, i)`. -/
def stateFold (states : List ℚ) : ℚ × ℚ :=
  states.foldl (fun acc s => (acc.1 + s * acc.2, acc.2 * 2)) (0, 1)

/-- `utils.rs::get_state`: classify the 8 corners of a voxel into an 8-bit
state.  Slices whose length is not 8 yield `InvalidCorners`.  The final
float-to-`usize` cast is the floor of the (non-negative, integral)
accumulated sum. -/
def get_state (eval_corners : List ℚ) (threshold : ℚ) :
    Except MarchingCubesError Nat :=
  if eval_corners.length ≠ 8 then
    Except.error MarchingCubesError.invalidCorners
  else
    Except.ok (Int.floor (stateFold (eval_corners.map (fun x => state_function x threshold))).1).toNat

/-- Value of a little-endian list of bits. -/
def bitsVal : List Bool → Nat
  | [] => 0
  | b :: bs => b.toNat + 2 * bitsVal bs

/-- The corner-classification bits of a value slice. -/
def insideBits (l : List ℚ) (threshold : ℚ) : List Bool :=
  l.map (fun v => decide (v ≤ threshold))

lemma stateFold_eq_bitsVal (l : List ℚ) (t : ℚ) (a i : ℚ) :
    ((l.map (fun x => state_function x t)).foldl
        (fun acc s => (acc.1 + s * acc.2, acc.2 * 2)) (a, i)).1
      = a + i * (bitsVal (insideBits l t) : ℚ) := by
  induction l generalizing a i with
  | nil => simp [insideBits, bitsVal]
  | cons v rest ih =>
      simp only [List.map_cons, List.foldl_cons, insideBits, bitsVal]
      rw [ih]
      by_cases h : v ≤ t
      · simp only [state_function, if_pos h, decide_eq_true h, Bool.toNat_true, insideBits]
        push_cast
        ring
      · simp only [state_function, if_neg h, decide_eq_false h, Bool.toNat_false, insideBits]
        push_cast
        ring

lemma bitsVal_testBit (bs : List Bool) (k : Nat) :
    (bitsVal bs).testBit k = bs.getD k false := by
  induction bs generalizing k with
  | nil => simp [bitsVal, Nat.testBit]
  | cons b rest ih =>
      cases k with
      | zero =>
          simp only [bitsVal, List.getD_cons_zero, Nat.testBit_zero]
          cases b
          · simp
          · simp
      | succ k =>
          simp only [bitsVal, List.getD_cons_succ]
          rw [← ih k]
          rw [Nat.testBit_add_one]
          congr 1
          cases b <;> simp <;> omega

lemma bitsVal_lt (bs : List Bool) : bitsVal bs < 2 ^ bs.length := by
  induction bs with
  | nil => simp [bitsVal]
  | cons b rest ih =>
      simp only [bitsVal, List.length_cons, pow_succ]
      cases b <;> simp only [Bool.toNat_true, Bool.toNat_false] <;> omega

lemma get_state_ok (l : List ℚ) (t : ℚ) (h : l.length = 8) :
    get_state l t = Except.ok (bitsVal (insideBits l t)) := by
  unfold get_state stateFold
  rw [if_neg (by omega)]
  rw [stateFold_eq_bitsVal l t 0 1]
  rw [zero_add, one_mul, Int.floor_natCast, Int.toNat_natCast]

/-- C1: for every slice of exactly 8 corner values and any threshold,
`get_state` returns a state whose bit `i` (`i = 0..7`, bit 0 least
significant, corner ordering fixed) is set iff corner value `i` is `≤` the
threshold, and the returned state lies in `[0, 255]`. -/
theorem get_state_classifies_corners (l : List ℚ) (t : ℚ) (h : l.length = 8) :
    ∃ n, get_state l t = Except.ok n ∧ n ≤ 255 ∧
      ∀ i, i < 8 → (n.testBit i = decide (l.getD i 0 ≤ t)) := by
  refine ⟨bitsVal (insideBits l t), get_state_ok l t h, ?_, ?_⟩
  · have hb := bitsVal_lt (insideBits l t)
    have hlen : (insideBits l t).length = 8 := by simp [insideBits, h]
    rw [hlen] at hb
    omega
  · intro i hi
    rw [bitsVal_testBit]
    unfold insideBits
    have hil : i < l.length := by omega
    have him : i < (l.map (fun v => decide (v ≤ t))).length := by
      rw [List.length_map]; omega
    rw [List.getD_eq_getElem _ _ him, List.getD_eq_getElem _ _ hil, List.getElem_map]

/-- Witness for C1 at a concrete 8-value slice. -/
theorem get_state_classifies_corners_witness :
    ([(-1 : ℚ), 2, 0, 3, -5, 7, 0, 1].length = 8) ∧
      (∃ n, get_state [(-1 : ℚ), 2, 0, 3, -5, 7, 0, 1] 0 = Except.ok n ∧ n ≤ 255 ∧
        ∀ i, i < 8 →
          (n.testBit i = decide (([(-1 : ℚ), 2, 0, 3, -5, 7, 0, 1].getD i 0) ≤ 0))) :=
  ⟨by decide, get_state_classifies_corners [(-1 : ℚ), 2, 0, 3, -5, 7, 0, 1] 0 (by decide)⟩

/-- C8: `get_state` returns the `InvalidCorners` error value exactly on
slices whose length is not 8, and returns `Ok` exactly on slices of
length 8 (so it never crashes on a malformed slice). -/
theorem get_state_invalid_corners (l : List ℚ) (t : ℚ) :
    (get_state l t = Except.error MarchingCubesError.invalidCorners ↔ l.length ≠ 8)
      ∧ ((∃ n, get_state l t = Except.ok n) ↔ l.length = 8) := by
  by_cases h : l.length = 8
  · constructor
    · rw [get_state_ok l t h]
      simp [h]
    · simp only [h, iff_true]
      exact ⟨bitsVal (insideBits l t), get_state_ok l t h⟩
  · unfold get_state
    rw [if_pos h]
    simp [h]

/-- `utils.rs::edges_from_lookup` loop: walk the binary string (most
significant edge first), with a counter starting at `length - 1` and
decremented per character; indices of `'1'` characters are collected in
walk order. -/
def edges_from_lookup_go : List Char → Int → List Nat
  | [], _ => []
  | c :: rest, i =>
      if c = '1' then i.toNat :: edges_from_lookup_go rest (i - 1)
      else edges_from_lookup_go rest (i - 1)

/-- `utils.rs::edges_from_lookup`: the edge indices whose bit is `1` in the
edge-table row, given as a binary string. -/
def edges_from_lookup (edges : List Char) : List Nat :=
  edges_from_lookup_go edges ((edges.length : Int) - 1)

/-- `utils.rs::get_edge_endpoints`: for each selected edge, its pair of
corner indices from the 12-entry endpoint table (`point_indices`).  The
source indexes `point_indices[e]`; out-of-range indices (impossible for a
12-character row) default to `(0, 0)` here. -/
def get_edge_endpoints (edges : List Char) (point_indices : List (Nat × Nat)) :
    List (Nat × Nat) × List Nat :=
  let edges_to_use := edges_from_lookup edges
  (edges_to_use.map (fun e => point_indices.getD e (0, 0)), edges_to_use)

/-- `utils.rs::get_edge_midpoints` loop, with the `HashMap` modelled as an
association list consulted by `List.lookup` (a later `insert` shadows an
earlier one, so insertions are consed on top of the accumulator `acc`).
Each iteration reads the endpoint pair `pair` and edge index `edge` at
position `i`, fetches endpoint values and positions (out-of-range corner
indices, impossible in use, default to `0` / the origin), computes
`t = find_t(vi, vf, threshold)` and the interpolated point, and stores it
keyed by the edge index.  The source's `pair.len() > 0` test on a 2-array
is always true and is dropped. -/
def get_edge_midpoints_go (endpoint_indices : List (Nat × Nat))
    (edges_to_use : List Nat) (corner_positions : List Pt)
    (corner_values : List ℚ) (threshold : ℚ)
    (acc : List (Nat × List ℚ)) : List (Nat × List ℚ) :=
  match endpoint_indices, edges_to_use with
  | [], _ => acc
  | _ :: _, [] => acc
  | pair :: restPairs, edge :: restEdges =>
      let vi := corner_values.getD pair.1 0
      let vf := corner_values.getD pair.2 0
      let pi_ := corner_positions.getD pair.1 ⟨0, 0, 0⟩
      let pf := corner_positions.getD pair.2 ⟨0, 0, 0⟩
      let t := find_t vi vf threshold
      let pe := interpolate_points pi_ pf t
      get_edge_midpoints_go restPairs restEdges corner_positions corner_values
        threshold ((edge, pe) :: acc)

/-- `utils.rs::get_edge_midpoints`: starting from an empty map. -/
def get_edge_midpoints (endpoint_indices : List (Nat × Nat))
    (edges_to_use : List Nat) (corner_positions : List Pt)
    (corner_values : List ℚ) (threshold : ℚ) : List (Nat × List ℚ) :=
  get_edge_midpoints_go endpoint_indices edges_to_use corner_positions
    corner_values threshold []

/-- The crossing point `get_edge_midpoints` computes for edge `e` when the
endpoint table gives `pis.getD e (0,0)`. -/
def crossingPoint (pis : List (Nat × Nat)) (cps : List Pt) (cvs : List ℚ)
    (th : ℚ) (e : Nat) : List ℚ :=
  let pair := pis.getD e (0, 0)
  interpolate_points (cps.getD pair.1 ⟨0, 0, 0⟩) (cps.getD pair.2 ⟨0, 0, 0⟩)
    (find_t (cvs.getD pair.1 0) (cvs.getD pair.2 0) th)

lemma get_edge_midpoints_go_lookup (pis : List (Nat × Nat)) (cps : List Pt)
    (cvs : List ℚ) (th : ℚ) (etu : List Nat) (acc : List (Nat × List ℚ))
    (e : Nat) :
    (get_edge_midpoints_go (etu.map (fun e0 => pis.getD e0 (0, 0))) etu cps cvs
        th acc).lookup e
      = if e ∈ etu then some (crossingPoint pis cps cvs th e)
        else acc.lookup e := by
  induction etu generalizing acc with
  | nil => simp [get_edge_midpoints_go]
  | cons e0 rest ih =>
      simp only [List.map_cons, get_edge_midpoints_go]
      rw [ih]
      by_cases hmem : e ∈ rest
      · simp [hmem]
      · by_cases heq : e = e0
        · subst heq
          simp [hmem, List.lookup, crossingPoint]
        · simp only [hmem, if_false, List.mem_cons, heq, false_or, if_neg hmem]
          simp [List.lookup, beq_false_of_ne heq, heq]

/-- C2: for every edge selected by the edge mask of a voxel's state (an
edge-table row `edges`), with endpoint corner indices taken from the
edge-endpoint table `pis`, endpoint values `v0, v1` and positions `p0, p1`,
the stored crossing point for that edge is keyed by the edge's index and
equals the component-wise `lerp(p0, p1, t)` with
`t = (threshold - v0) / (v1 - v0)`. -/
theorem get_edge_midpoints_stores_lerp (edges : List Char)
    (pis : List (Nat × Nat)) (cps : List Pt) (cvs : List ℚ) (th : ℚ)
    (e : Nat) (he : e ∈ (get_edge_endpoints edges pis).2) :
    (get_edge_midpoints (get_edge_endpoints edges pis).1
        (get_edge_endpoints edges pis).2 cps cvs th).lookup e
      = some (interpolate_points
          (cps.getD (pis.getD e (0, 0)).1 ⟨0, 0, 0⟩)
          (cps.getD (pis.getD e (0, 0)).2 ⟨0, 0, 0⟩)
          (find_t (cvs.getD (pis.getD e (0, 0)).1 0)
            (cvs.getD (pis.getD e (0, 0)).2 0) th)) := by
  unfold get_edge_midpoints
  have h := get_edge_midpoints_go_lookup pis cps cvs th
    (edges_from_lookup edges) [] e
  simp only [get_edge_endpoints] at he ⊢
  rw [h, if_pos he]
  rfl

/-- Witness for C2: the edge-table row `"0110"` selects edges 1 and 2; the
point stored for edge 1 is the lerp of its endpoints at the computed `t`. -/
theorem get_edge_midpoints_stores_lerp_witness :
    (1 ∈ (get_edge_endpoints ['0', '1', '1', '0']
        [(0, 1), (1, 2), (2, 3), (3, 0)]).2) ∧
      ((get_edge_midpoints
          (get_edge_endpoints ['0', '1', '1', '0'] [(0, 1), (1, 2), (2, 3), (3, 0)]).1
          (get_edge_endpoints ['0', '1', '1', '0'] [(0, 1), (1, 2), (2, 3), (3, 0)]).2
          [⟨0, 0, 0⟩, ⟨2, 0, 0⟩, ⟨2, 4, 0⟩, ⟨0, 4, 0⟩] [0, 2, 6, 1] 1).lookup 1
        = some (interpolate_points
            (([⟨0, 0, 0⟩, ⟨2, 0, 0⟩, ⟨2, 4, 0⟩, (⟨0, 4, 0⟩ : Pt)].getD
              (([(0, 1), (1, 2), (2, 3), (3, 0)].getD 1 (0, 0)).1) ⟨0, 0, 0⟩))
            (([⟨0, 0, 0⟩, ⟨2, 0, 0⟩, ⟨2, 4, 0⟩, (⟨0, 4, 0⟩ : Pt)].getD
              (([(0, 1), (1, 2), (2, 3), (3, 0)].getD 1 (0, 0)).2) ⟨0, 0, 0⟩))
            (find_t (([(0 : ℚ), 2, 6, 1].getD
                (([(0, 1), (1, 2), (2, 3), (3, 0)].getD 1 (0, 0)).1) 0))
              (([(0 : ℚ), 2, 6, 1].getD
                (([(0, 1), (1, 2), (2, 3), (3, 0)].getD 1 (0, 0)).2) 0)) 1))) :=
  ⟨by decide, get_edge_midpoints_stores_lerp ['0', '1', '1', '0']
    [(0, 1), (1, 2), (2, 3), (3, 0)]
    [⟨0, 0, 0⟩, ⟨2, 0, 0⟩, ⟨2, 4, 0⟩, ⟨0, 4, 0⟩] [0, 2, 6, 1] 1 1 (by decide)⟩

/-- `utils.rs::triangle_verts_from_state`: walk the triangle-table row for
the state (`TRI_TABLE[state]`, passed here as `row` since `tables.rs` is
not under `src/`), keep the entries that are not the `-1` sentinel, and for
each edge index build the vertex `Point3::new(ep[2], ep[1], ep[0])` from
the stored crossing point's components (note the source reads the stored
`[x, y, z]` components in reversed order).  Missing map entries (impossible
in use, the source would panic) default to `[]`, missing components to `0`. -/
def triangle_verts_from_state (edge_points : List (Nat × List ℚ))
    (row : List Int) : List Pt :=
  (row.filter (fun v => v ≠ -1)).map (fun t =>
    let ep := (edge_points.lookup t.toNat).getD []
    ⟨ep.getD 2 0, ep.getD 1 0, ep.getD 0 0⟩)

/-- Counterexample to C3: with the crossing point `[1, 2, 3]` (the point
`(1, 2, 3)` in the pipeline's `x, y, z` storage order, as produced by
`interpolate_points`) stored for edge 0, the triangle-table row `[0, -1]`
emits the vertex `(3, 2, 1)`, not the stored crossing point `(1, 2, 3)`. -/
theorem triangle_verts_reverses_components :
    interpolate_points ⟨1, 2, 3⟩ ⟨1, 2, 3⟩ 0 = [1, 2, 3]
      ∧ triangle_verts_from_state [(0, [1, 2, 3])] [0, -1] = [⟨3, 2, 1⟩]
      ∧ triangle_verts_from_state [(0, [1, 2, 3])] [0, -1] ≠ [⟨1, 2, 3⟩] := by
  refine ⟨?_, ?_, ?_⟩
  · simp only [interpolate_points, lerp]
    norm_num
  · simp [triangle_verts_from_state, List.filter, List.lookup]
  · simp only [triangle_verts_from_state]
    intro h
    simp [List.filter, List.lookup, Pt.mk.injEq] at h

/-- A sentinel-terminated triangle-table row: every entry from the first
`-1` on is `-1` (true of every row of the real 256-entry table). -/
def sentinelRow (row : List Int) : Prop :=
  ∀ v ∈ row.dropWhile (fun v => v ≠ -1), v = -1

lemma filter_ne_eq_takeWhile (row : List Int) (h : sentinelRow row) :
    row.filter (fun v => v ≠ -1) = row.takeWhile (fun v => v ≠ -1) := by
  induction row with
  | nil => rfl
  | cons a rest ih =>
      by_cases ha : a = -1
      · subst ha
        have hall : ∀ v ∈ rest, v = (-1 : Int) := by
          intro v hv
          apply h
          rw [List.dropWhile_cons_of_neg (by simp)]
          exact List.mem_cons_of_mem _ hv
        rw [List.takeWhile_cons_of_neg (by simp)]
        rw [List.filter_cons_of_neg (by simp)]
        apply List.filter_eq_nil_iff.mpr
        intro v hv
        simp [hall v hv]
      · rw [List.takeWhile_cons_of_pos (by simp [ha])]
        rw [List.filter_cons_of_pos (by simp [ha])]
        rw [ih]
        intro v hv
        apply h
        rw [List.dropWhile_cons_of_pos (by simp [ha])]
        exact hv

/-- C3 (amended): for every sentinel-terminated triangle-table row, the
emission walks the row in order until the first `-1` sentinel, and each
emitted vertex is built from the crossing point stored for its edge index
with the stored `[x, y, z]` components read in reversed order
(`(z, y, x)`), with no other alteration of the table's order. -/
theorem triangle_verts_walks_row (edge_points : List (Nat × List ℚ))
    (row : List Int) (h : sentinelRow row) :
    triangle_verts_from_state edge_points row
      = (row.takeWhile (fun v => v ≠ -1)).map (fun t =>
          let ep := (edge_points.lookup t.toNat).getD []
          (⟨ep.getD 2 0, ep.getD 1 0, ep.getD 0 0⟩ : Pt)) := by
  unfold triangle_verts_from_state
  congr 1
  exact filter_ne_eq_takeWhile row h

/-- Witness for C3 (amended) on a concrete row with a mid-row sentinel. -/
theorem triangle_verts_walks_row_witness :
    sentinelRow [1, 0, -1, -1]
      ∧ triangle_verts_from_state [(0, [1, 2, 3]), (1, [4, 5, 6])] [1, 0, -1, -1]
        = (([1, 0, -1, -1] : List Int).takeWhile (fun v => v ≠ -1)).map (fun t =>
            let ep := ([(0, [1, 2, 3]), (1, [4, 5, 6])].lookup t.toNat).getD []
            (⟨ep.getD 2 0, ep.getD 1 0, ep.getD 0 0⟩ : Pt)) := by
  constructor
  · unfold sentinelRow
    decide
  · exact triangle_verts_walks_row [(0, [1, 2, 3]), (1, [4, 5, 6])] [1, 0, -1, -1]
      (by unfold sentinelRow; decide)

/-- `chunk.rs`: the scalar storage `Vec<Vec<Vec<Value>>>`, indexed
`values[z][y][x]`. -/
abbrev Grid : Type := List (List (List ℚ))

/-- Reading `values[z][y][x]`.  The source's out-of-bounds access panics;
here it defaults (`0` / empty rows), and every claim about reads carries
in-bounds hypotheses. -/
def cell (g : Grid) (z y x : Nat) : ℚ :=
  ((List.getD g z []).getD y []).getD x 0

/-- Writing `values[z][y][x] = v` (a no-op out of bounds, where the source
would panic). -/
def setCell (g : Grid) (z y x : Nat) (v : ℚ) : Grid :=
  List.set g z (((List.getD g z []).set y (((List.getD g z []).getD y []).set x v)))

/-- The dimension invariant of `Chunk`: the storage holds exactly
`(size_z+1) × (size_y+1) × (size_x+1)` scalars, outer length `size_z+1`,
middle `size_y+1`, inner `size_x+1`. -/
def gridInv (sx sy sz : Nat) (g : Grid) : Prop :=
  List.length g = sz + 1
    ∧ ∀ p ∈ g, p.length = sy + 1 ∧ ∀ r ∈ p, r.length = sx + 1

lemma length_setCell (g : Grid) (z y x : Nat) (v : ℚ) :
    List.length (setCell g z y x v) = List.length g := by
  unfold setCell
  exact List.length_set g ..

lemma gridInv_setCell {sx sy sz : Nat} {g : Grid} (hg : gridInv sx sy sz g)
    (z y x : Nat) (v : ℚ) : gridInv sx sy sz (setCell g z y x v) := by
  obtain ⟨hlen, hmem⟩ := hg
  by_cases hz : z < List.length g
  · have hzg : List.getD g z [] ∈ g := by
      rw [List.getD_eq_getElem _ _ hz]
      exact List.getElem_mem hz
    obtain ⟨hplen, hrows⟩ := hmem _ hzg
    refine ⟨by rw [length_setCell, hlen], ?_⟩
    intro p hp
    unfold setCell at hp
    rcases List.mem_or_eq_of_mem_set hp with hp' | hp'
    · exact hmem p hp'
    · subst hp'
      by_cases hy : y < (List.getD g z []).length
      · refine ⟨by rw [List.length_set]; exact hplen, ?_⟩
        intro r hr
        rcases List.mem_or_eq_of_mem_set hr with hr' | hr'
        · exact hrows r hr'
        · subst hr'
          have hrm : (List.getD g z []).getD y [] ∈ List.getD g z [] := by
            rw [List.getD_eq_getElem _ _ hy]
            exact List.getElem_mem hy
          rw [List.length_set]
          exact hrows _ hrm
      · rw [List.set_eq_of_length_le (by omega)]
        exact hmem _ hzg
  · unfold setCell
    rw [List.set_eq_of_length_le (by omega)]
    exact ⟨hlen, hmem⟩

lemma cell_setCell_same {sx sy sz : Nat} {g : Grid} (hg : gridInv sx sy sz g)
    {z y x : Nat} (hz : z ≤ sz) (hy : y ≤ sy) (hx : x ≤ sx) (v : ℚ) :
    cell (setCell g z y x v) z y x = v := by
  obtain ⟨hlen, hmem⟩ := hg
  have hzlt : z < List.length g := by omega
  have hplane : List.getD g z [] ∈ g := by
    rw [List.getD_eq_getElem _ _ hzlt]
    exact List.getElem_mem hzlt
  obtain ⟨hplen, hrows⟩ := hmem _ hplane
  have hylt : y < (List.getD g z []).length := by omega
  have hrow : (List.getD g z []).getD y [] ∈ List.getD g z [] := by
    rw [List.getD_eq_getElem _ _ hylt]
    exact List.getElem_mem hylt
  have hxlt : x < ((List.getD g z []).getD y []).length := by
    rw [hrows _ hrow]; omega
  simp only [cell, setCell, List.getD_eq_getElem?_getD] at hylt hxlt ⊢
  rw [List.getElem?_set_self hzlt, Option.getD_some,
    List.getElem?_set_self hylt, Option.getD_some,
    List.getElem?_set_self hxlt, Option.getD_some]

lemma cell_setCell_ne (g : Grid) (z y x z' y' x' : Nat) (v : ℚ)
    (h : ¬(z' = z ∧ y' = y ∧ x' = x)) :
    cell (setCell g z y x v) z' y' x' = cell g z' y' x' := by
  simp only [cell, setCell, List.getD_eq_getElem?_getD]
  by_cases hz : z' = z
  · subst hz
    by_cases hzlen : z' < List.length g
    · rw [List.getElem?_set_self hzlen, Option.getD_some]
      by_cases hy : y' = y
      · subst hy
        by_cases hylen : y' < ((g[z']?).getD []).length
        · rw [List.getElem?_set_self hylen, Option.getD_some]
          have hx : x' ≠ x := by tauto
          rw [List.getElem?_set_ne (Ne.symm hx)]
        · rw [List.set_eq_of_length_le (by omega)]
      · rw [List.getElem?_set_ne (Ne.symm hy)]
    · rw [List.set_eq_of_length_le (by omega)]
  · rw [List.getElem?_set_ne (Ne.symm hz)]

/-- `chunk.rs::Chunk`: the voxel grid (functional view of the data; the
`Arc` copy-on-write behaviour of the backing storage is modelled separately
by `make_mut`/`cow_set` below). -/
structure Chunk where
  size_x : Nat
  size_y : Nat
  size_z : Nat
  scale : ℚ
  threshold : ℚ
  values : Grid

/-- `Chunk::default()`: zero sizes, `scale = 1`, `threshold = 0`, and an
empty `values` vector. -/
def Chunk.default : Chunk :=
  ⟨0, 0, 0, 1, 0, ([] : List (List (List ℚ)))⟩

/-- `Chunk::new`: `(size+1)`-per-axis grid of zeros, remaining fields from
`Default` (`scale = 1`, `threshold = 0`). -/
def Chunk.new (sx sy sz : Nat) : Chunk :=
  ⟨sx, sy, sz, 1, 0,
    List.replicate (sz + 1) (List.replicate (sy + 1) (List.replicate (sx + 1) (0 : ℚ)))⟩

/-- `Chunk::with_scale`. -/
def Chunk.with_scale (c : Chunk) (s : ℚ) : Chunk :=
  { c with scale := s }

/-- `Chunk::with_threshold`. -/
def Chunk.with_threshold (c : Chunk) (t : ℚ) : Chunk :=
  { c with threshold := t }

/-- `Chunk::with_values`: replaces the backing storage after the three
`debug_assert_eq!` checks on the outer length, the first plane's length and
the first row's length (`none` models the debug assertion failure). -/
def Chunk.with_values (c : Chunk) (v : Grid) : Option Chunk :=
  if List.length v = c.size_z + 1
      ∧ (List.getD v 0 []).length = c.size_y + 1
      ∧ ((List.getD v 0 []).getD 0 []).length = c.size_x + 1
  then some { c with values := v }
  else none

/-- `Chunk::get`: the value at corner `(x, y, z)` (`values[z][y][x]`). -/
def Chunk.get (c : Chunk) (x y z : Nat) : ℚ :=
  cell c.values z y x

/-- `Chunk::set`: writes `values[z][y][x] = v` (through `values_mut`). -/
def Chunk.set (c : Chunk) (x y z : Nat) (v : ℚ) : Chunk :=
  { c with values := setCell c.values z y x v }

/-- The `Chunk` dimension invariant of the spec. -/
def Chunk.inv (c : Chunk) : Prop :=
  gridInv c.size_x c.size_y c.size_z c.values

lemma foldZ_cells (sx sy sz : Nat) (F : Nat → ℚ → ℚ) (y x : Nat)
    (hy : y ≤ sy) (hx : x ≤ sx) :
    ∀ n, n ≤ sz + 1 → ∀ g : Grid, gridInv sx sy sz g →
      gridInv sx sy sz ((List.range n).foldl
          (fun g3 z => setCell g3 z y x (F z (cell g3 z y x))) g)
      ∧ ∀ z' y' x',
          cell ((List.range n).foldl
              (fun g3 z => setCell g3 z y x (F z (cell g3 z y x))) g) z' y' x'
            = if z' < n ∧ y' = y ∧ x' = x then F z' (cell g z' y x)
              else cell g z' y' x' := by
  intro n
  induction n with
  | zero =>
      intro _ g hg
      refine ⟨hg, fun z' y' x' => ?_⟩
      simp only [List.range_zero, List.foldl_nil]
      rw [if_neg (by omega)]
  | succ n ih =>
      intro hn g hg
      obtain ⟨ihInv, ihCell⟩ := ih (by omega) g hg
      rw [List.range_succ, List.foldl_append, List.foldl_cons, List.foldl_nil]
      have hread : cell ((List.range n).foldl
          (fun g3 z => setCell g3 z y x (F z (cell g3 z y x))) g) n y x
            = cell g n y x := by
        rw [ihCell n y x, if_neg (by omega)]
      constructor
      · exact gridInv_setCell ihInv ..
      · intro z' y' x'
        by_cases hsame : z' = n ∧ y' = y ∧ x' = x
        · obtain ⟨rfl, rfl, rfl⟩ := hsame
          rw [cell_setCell_same ihInv (by omega) hy hx, hread,
            if_pos ⟨by omega, rfl, rfl⟩]
        · rw [cell_setCell_ne _ _ _ _ _ _ _ _ hsame, ihCell z' y' x']
          by_cases h1 : z' < n ∧ y' = y ∧ x' = x
          · rw [if_pos h1, if_pos ⟨by omega, h1.2.1, h1.2.2⟩]
          · rw [if_neg h1, if_neg ?_]
            intro hc
            obtain ⟨hzc, hyc, hxc⟩ := hc
            have : z' < n ∨ z' = n := by omega
            rcases this with h' | h'
            · exact h1 ⟨h', hyc, hxc⟩
            · exact hsame ⟨h', hyc, hxc⟩

/-- The innermost (`z`) loop of the triple corner loops of `chunk.rs`. -/
def zLoop (f : ℚ → ℚ → ℚ → ℚ → ℚ) (t1 t2 t3 : Nat → ℚ) (sz y x : Nat)
    (g : Grid) : Grid :=
  (List.range (sz + 1)).foldl
    (fun g3 z => setCell g3 z y x (f (t1 x) (t2 y) (t3 z) (cell g3 z y x))) g

/-- The middle (`y`) loop of the triple corner loops of `chunk.rs`. -/
def yLoop (f : ℚ → ℚ → ℚ → ℚ → ℚ) (t1 t2 t3 : Nat → ℚ) (sy sz x : Nat)
    (g : Grid) : Grid :=
  (List.range (sy + 1)).foldl (fun g2 y => zLoop f t1 t2 t3 sz y x g2) g

/-- Shared triple-loop shape of `chunk.rs`'s `for_each_corner`,
`for_each_corner_offset` and `fill`: iterate `x` in `0..=size_x`, `y` in
`0..=size_y`, `z` in `0..=size_z`, updating `values[z][y][x]` with `f`
applied to the per-axis coordinates (`t1 x`, `t2 y`, `t3 z`) and the cell's
current value.  The three operations differ only in the coordinate maps and
in whether `f` reads the old value. -/
def cornerLoop (t1 t2 t3 : Nat → ℚ) (f : ℚ → ℚ → ℚ → ℚ → ℚ)
    (sx sy sz : Nat) (g : Grid) : Grid :=
  (List.range (sx + 1)).foldl (fun g1 x => yLoop f t1 t2 t3 sy sz x g1) g

lemma zLoop_cells (sx sy sz : Nat) (f : ℚ → ℚ → ℚ → ℚ → ℚ)
    (t1 t2 t3 : Nat → ℚ) (y x : Nat) (hy : y ≤ sy) (hx : x ≤ sx)
    (g : Grid) (hg : gridInv sx sy sz g) :
    gridInv sx sy sz (zLoop f t1 t2 t3 sz y x g)
      ∧ ∀ z' y' x',
          cell (zLoop f t1 t2 t3 sz y x g) z' y' x'
            = if z' ≤ sz ∧ y' = y ∧ x' = x
              then f (t1 x) (t2 y) (t3 z') (cell g z' y x)
              else cell g z' y' x' := by
  obtain ⟨hInv, hCell⟩ := foldZ_cells sx sy sz
    (fun z old => f (t1 x) (t2 y) (t3 z) old) y x hy hx (sz + 1) (by omega) g hg
  refine ⟨hInv, fun z' y' x' => ?_⟩
  rw [zLoop, hCell z' y' x']
  by_cases h : z' ≤ sz ∧ y' = y ∧ x' = x
  · rw [if_pos ⟨by omega, h.2.1, h.2.2⟩, if_pos h]
  · rw [if_neg (by omega), if_neg h]

lemma yLoop_cells (sx sy sz : Nat) (f : ℚ → ℚ → ℚ → ℚ → ℚ)
    (t1 t2 t3 : Nat → ℚ) (x : Nat) (hx : x ≤ sx) :
    ∀ n, n ≤ sy + 1 → ∀ g : Grid, gridInv sx sy sz g →
      gridInv sx sy sz ((List.range n).foldl
          (fun g2 y => zLoop f t1 t2 t3 sz y x g2) g)
      ∧ ∀ z' y' x',
          cell ((List.range n).foldl
              (fun g2 y => zLoop f t1 t2 t3 sz y x g2) g) z' y' x'
            = if y' < n ∧ x' = x ∧ z' ≤ sz
              then f (t1 x) (t2 y') (t3 z') (cell g z' y' x)
              else cell g z' y' x' := by
  intro n
  induction n with
  | zero =>
      intro _ g hg
      refine ⟨hg, fun z' y' x' => ?_⟩
      simp only [List.range_zero, List.foldl_nil]
      rw [if_neg (by omega)]
  | succ n ih =>
      intro hn g hg
      obtain ⟨ihInv, ihCell⟩ := ih (by omega) g hg
      rw [List.range_succ, List.foldl_append, List.foldl_cons, List.foldl_nil]
      obtain ⟨zInv, zCell⟩ := zLoop_cells sx sy sz f t1 t2 t3 n x
        (by omega) hx _ ihInv
      constructor
      · exact zInv
      · intro z' y' x'
        rw [zCell z' y' x']
        by_cases hzrow : z' ≤ sz ∧ y' = n ∧ x' = x
        · obtain ⟨hz1, rfl, rfl⟩ := hzrow
          rw [if_pos ⟨hz1, rfl, rfl⟩]
          rw [ihCell z' y' x', if_neg (by omega), if_pos ⟨by omega, rfl, hz1⟩]
        · rw [if_neg hzrow, ihCell z' y' x']
          by_cases h1 : y' < n ∧ x' = x ∧ z' ≤ sz
          · rw [if_pos h1, if_pos ⟨by omega, h1.2.1, h1.2.2⟩]
          · rw [if_neg h1, if_neg ?_]
            intro hc
            obtain ⟨hyc, hxc, hzc⟩ := hc
            have : y' < n ∨ y' = n := by omega
            rcases this with h' | h'
            · exact h1 ⟨h', hxc, hzc⟩
            · exact hzrow ⟨hzc, h', hxc⟩

lemma xLoop_cells (sx sy sz : Nat) (f : ℚ → ℚ → ℚ → ℚ → ℚ)
    (t1 t2 t3 : Nat → ℚ) :
    ∀ n, n ≤ sx + 1 → ∀ g : Grid, gridInv sx sy sz g →
      gridInv sx sy sz ((List.range n).foldl
          (fun g1 x => yLoop f t1 t2 t3 sy sz x g1) g)
      ∧ ∀ z' y' x',
          cell ((List.range n).foldl
              (fun g1 x => yLoop f t1 t2 t3 sy sz x g1) g) z' y' x'
            = if x' < n ∧ y' ≤ sy ∧ z' ≤ sz
              then f (t1 x') (t2 y') (t3 z') (cell g z' y' x')
              else cell g z' y' x' := by
  intro n
  induction n with
  | zero =>
      intro _ g hg
      refine ⟨hg, fun z' y' x' => ?_⟩
      simp only [List.range_zero, List.foldl_nil]
      rw [if_neg (by omega)]
  | succ n ih =>
      intro hn g hg
      obtain ⟨ihInv, ihCell⟩ := ih (by omega) g hg
      rw [List.range_succ, List.foldl_append, List.foldl_cons, List.foldl_nil]
      have hyl := yLoop_cells sx sy sz f t1 t2 t3 n (by omega)
        (sy + 1) (by omega) _ ihInv
      rw [yLoop]
      obtain ⟨yInv, yCell⟩ := hyl
      constructor
      · exact yInv
      · intro z' y' x'
        rw [yCell z' y' x']
        by_cases hyrow : y' < sy + 1 ∧ x' = n ∧ z' ≤ sz
        · obtain ⟨hy1, rfl, hz1⟩ := hyrow
          rw [if_pos ⟨hy1, rfl, hz1⟩]
          rw [ihCell z' y' x', if_neg (by omega), if_pos ⟨by omega, by omega, hz1⟩]
        · rw [if_neg hyrow, ihCell z' y' x']
          by_cases h1 : x' < n ∧ y' ≤ sy ∧ z' ≤ sz
          · rw [if_pos h1, if_pos ⟨by omega, h1.2.1, h1.2.2⟩]
          · rw [if_neg h1, if_neg ?_]
            intro hc
            obtain ⟨hxc, hyc, hzc⟩ := hc
            have : x' < n ∨ x' = n := by omega
            rcases this with h' | h'
            · exact h1 ⟨h', hyc, hzc⟩
            · exact hyrow ⟨by omega, h', hzc⟩

/-- The full loop characterization: `cornerLoop` preserves the dimension
invariant and sets every in-range corner `(x, y, z)` to
`f (t1 x) (t2 y) (t3 z) (old value)`. -/
lemma cornerLoop_spec {sx sy sz : Nat} {g : Grid} (hg : gridInv sx sy sz g)
    (t1 t2 t3 : Nat → ℚ) (f : ℚ → ℚ → ℚ → ℚ → ℚ) :
    gridInv sx sy sz (cornerLoop t1 t2 t3 f sx sy sz g)
      ∧ ∀ z' y' x',
          cell (cornerLoop t1 t2 t3 f sx sy sz g) z' y' x'
            = if x' ≤ sx ∧ y' ≤ sy ∧ z' ≤ sz
              then f (t1 x') (t2 y') (t3 z') (cell g z' y' x')
              else cell g z' y' x' := by
  obtain ⟨hInv, hCell⟩ := xLoop_cells sx sy sz f t1 t2 t3
    (sx + 1) (by omega) g hg
  rw [cornerLoop]
  refine ⟨hInv, fun z' y' x' => ?_⟩
  rw [hCell z' y' x']
  by_cases h : x' ≤ sx ∧ y' ≤ sy ∧ z' ≤ sz
  · rw [if_pos h, if_pos ⟨by omega, h.2.1, h.2.2⟩]
  · rw [if_neg h, if_neg (by omega)]

/-- `Chunk::for_each_corner`: calls `f(x, y, z, &mut value)` for every
corner of the grid; the coordinates are the raw integer corner indices. -/
def Chunk.for_each_corner (c : Chunk) (f : ℚ → ℚ → ℚ → ℚ → ℚ) : Chunk :=
  let newValues := cornerLoop (fun n => (n : ℚ)) (fun n => (n : ℚ))
    (fun n => (n : ℚ)) f c.size_x c.size_y c.size_z c.values
  { c with values := newValues }

/-- `Chunk::for_each_corner_offset`: like `for_each_corner`, but each
coordinate passed to `f` is `min_point + index * scale` on its axis. -/
def Chunk.for_each_corner_offset (c : Chunk) (min_point : Pt)
    (f : ℚ → ℚ → ℚ → ℚ → ℚ) : Chunk :=
  let newValues := cornerLoop
    (fun n => min_point.x + n * c.scale)
    (fun n => min_point.y + n * c.scale)
    (fun n => min_point.z + n * c.scale) f c.size_x c.size_y c.size_z c.values
  { c with values := newValues }

/-- `Chunk::fill`: sets `values[z][y][x] = function(x·scale, y·scale,
z·scale)` for every corner; the old value is not read. -/
def Chunk.fill (c : Chunk) (function : ℚ → ℚ → ℚ → ℚ) : Chunk :=
  let newValues := cornerLoop
    (fun n => n * c.scale) (fun n => n * c.scale) (fun n => n * c.scale)
    (fun xf yf zf _old => function xf yf zf) c.size_x c.size_y c.size_z c.values
  { c with values := newValues }

/-- Counterexample to C6: `Chunk::default()` has empty backing storage —
0 scalars where the dimension invariant demands
`(0+1)·(0+1)·(0+1) = 1` (outer length `size_z + 1 = 1`). -/
theorem default_chunk_breaks_invariant :
    List.length Chunk.default.values = 0
      ∧ (Chunk.default.size_x + 1) * (Chunk.default.size_y + 1)
          * (Chunk.default.size_z + 1) = 1
      ∧ ¬ Chunk.default.inv := by
  refine ⟨rfl, rfl, ?_⟩
  intro h
  obtain ⟨h1, -⟩ := h
  simp [Chunk.default] at h1

/-- C6 (amended): every `Chunk` produced by `new`, `with_scale`,
`with_threshold`, `fill`, `set`, `for_each_corner` or
`for_each_corner_offset` satisfies the dimension invariant
(`(size_x+1)·(size_y+1)·(size_z+1)` scalars: outer length `size_z+1`,
middle `size_y+1`, inner `size_x+1`); `with_values` is assertion-failed
when the outer, first-plane or first-row length mismatches, and a
substituted storage whose dimensions fully match yields a chunk satisfying
the invariant.  `Default` is the exception: its storage is empty. -/
theorem chunk_ops_preserve_invariant (sx sy sz : Nat) (c : Chunk) (v : Grid)
    (f : ℚ → ℚ → ℚ → ℚ → ℚ) (fil : ℚ → ℚ → ℚ → ℚ) (s t : ℚ) (m : Pt)
    (x y z : Nat) (w : ℚ) :
    (Chunk.new sx sy sz).inv
      ∧ (c.inv → (c.with_scale s).inv ∧ (c.with_threshold t).inv)
      ∧ (c.inv → (c.set x y z w).inv)
      ∧ (c.inv → (c.fill fil).inv)
      ∧ (c.inv → (c.for_each_corner f).inv)
      ∧ (c.inv → (c.for_each_corner_offset m f).inv)
      ∧ (gridInv c.size_x c.size_y c.size_z v →
          c.with_values v = some { c with values := v }
            ∧ ({ c with values := v } : Chunk).inv)
      ∧ (¬(List.length v = c.size_z + 1
            ∧ (List.getD v 0 []).length = c.size_y + 1
            ∧ ((List.getD v 0 []).getD 0 []).length = c.size_x + 1) →
          c.with_values v = none) := by
  refine ⟨?_, ?_, ?_, ?_, ?_, ?_, ?_, ?_⟩
  · show gridInv sx sy sz (List.replicate (sz + 1)
      (List.replicate (sy + 1) (List.replicate (sx + 1) (0 : ℚ))))
    refine ⟨by simp, ?_⟩
    intro p hp
    rw [List.mem_replicate] at hp
    rw [hp.2]
    refine ⟨by simp, ?_⟩
    intro r hr
    rw [List.mem_replicate] at hr
    rw [hr.2]
    simp
  · exact fun h => ⟨h, h⟩
  · exact fun h => gridInv_setCell h z y x w
  · intro h
    exact (cornerLoop_spec h
      (fun n => n * c.scale) (fun n => n * c.scale) (fun n => n * c.scale)
      (fun xf yf zf _old => fil xf yf zf)).1
  · intro h
    exact (cornerLoop_spec h
      (fun n => (n : ℚ)) (fun n => (n : ℚ)) (fun n => (n : ℚ)) f).1
  · intro h
    exact (cornerLoop_spec h
      (fun n => m.x + n * c.scale) (fun n => m.y + n * c.scale)
      (fun n => m.z + n * c.scale) f).1
  · intro h
    obtain ⟨hlen, hmem⟩ := h
    have hlv : 0 < List.length v := by omega
    have hv0 : List.getD v 0 [] ∈ v := by
      rw [List.getD_eq_getElem _ _ hlv]
      exact List.getElem_mem hlv
    obtain ⟨hplen, hrows⟩ := hmem _ hv0
    have hlp : 0 < (List.getD v 0 []).length := by omega
    have hr0 : (List.getD v 0 []).getD 0 [] ∈ List.getD v 0 [] := by
      rw [List.getD_eq_getElem _ _ hlp]
      exact List.getElem_mem hlp
    have hchecks : List.length v = c.size_z + 1
        ∧ (List.getD v 0 []).length = c.size_y + 1
        ∧ ((List.getD v 0 []).getD 0 []).length = c.size_x + 1 :=
      ⟨hlen, hplen, hrows _ hr0⟩
    unfold Chunk.with_values
    rw [if_pos hchecks]
    exact ⟨rfl, hlen, hmem⟩
  · intro h
    unfold Chunk.with_values
    rw [if_neg h]

/-- Witness for C6 (amended): concrete instances of the `new` clause and
both `with_values` clauses. -/
theorem chunk_ops_preserve_invariant_witness :
    (Chunk.new 0 0 0).inv
      ∧ (Chunk.new 0 0 0).with_values [[[5]]]
          = some { Chunk.new 0 0 0 with values := [[[5]]] }
      ∧ (Chunk.new 0 0 0).with_values [] = none := by
  have T1 := chunk_ops_preserve_invariant 0 0 0 (Chunk.new 0 0 0) [[[5]]]
    (fun _ _ _ o => o) (fun _ _ _ => 0) 1 0 ⟨0, 0, 0⟩ 0 0 0 0
  have T2 := chunk_ops_preserve_invariant 0 0 0 (Chunk.new 0 0 0) []
    (fun _ _ _ o => o) (fun _ _ _ => 0) 1 0 ⟨0, 0, 0⟩ 0 0 0 0
  refine ⟨T1.1, ?_, ?_⟩
  · exact (T1.2.2.2.2.2.2.1 (by unfold gridInv; decide)).1
  · exact T2.2.2.2.2.2.2.2 (by decide)

/-- C7: `fill` sets every in-range corner `(x, y, z)` to the field function
evaluated at `(x·scale, y·scale, z·scale)`, and `for_each_corner_offset`
passes, per axis, the coordinate `min_point + index·scale` (the world-space
offset is added to the scaled index) together with the corner's current
value. -/
theorem fill_samples_scaled_field (c : Chunk) (fil : ℚ → ℚ → ℚ → ℚ)
    (f : ℚ → ℚ → ℚ → ℚ → ℚ) (min_point : Pt) (x y z : Nat) (hc : c.inv)
    (hx : x ≤ c.size_x) (hy : y ≤ c.size_y) (hz : z ≤ c.size_z) :
    (c.fill fil).get x y z
        = fil (x * c.scale) (y * c.scale) (z * c.scale)
      ∧ (c.for_each_corner_offset min_point f).get x y z
          = f (min_point.x + x * c.scale) (min_point.y + y * c.scale)
              (min_point.z + z * c.scale) (c.get x y z) := by
  constructor
  · have h := (cornerLoop_spec hc (fun n => n * c.scale) (fun n => n * c.scale)
      (fun n => n * c.scale) (fun xf yf zf _old => fil xf yf zf)).2 z y x
    rw [if_pos ⟨hx, hy, hz⟩] at h
    exact h
  · have h := (cornerLoop_spec hc
      (fun n => min_point.x + n * c.scale)
      (fun n => min_point.y + n * c.scale)
      (fun n => min_point.z + n * c.scale) f).2 z y x
    rw [if_pos ⟨hx, hy, hz⟩] at h
    exact h

/-- Witness for C7 on a concrete 1×1×1 chunk. -/
theorem fill_samples_scaled_field_witness :
    ((Chunk.new 1 1 1).inv ∧ 1 ≤ (Chunk.new 1 1 1).size_x
        ∧ 0 ≤ (Chunk.new 1 1 1).size_y ∧ 1 ≤ (Chunk.new 1 1 1).size_z)
      ∧ (((Chunk.new 1 1 1).fill (fun a _ _ => a)).get 1 0 1
            = (fun (a : ℚ) (_ _ : ℚ) => a) (1 * (Chunk.new 1 1 1).scale)
                (0 * (Chunk.new 1 1 1).scale) (1 * (Chunk.new 1 1 1).scale)
          ∧ ((Chunk.new 1 1 1).for_each_corner_offset ⟨2, 3, 4⟩
                (fun _ _ _ o => o)).get 1 0 1
              = (fun (_ _ _ : ℚ) (o : ℚ) => o)
                  ((2 : ℚ) + 1 * (Chunk.new 1 1 1).scale)
                  ((3 : ℚ) + 0 * (Chunk.new 1 1 1).scale)
                  ((4 : ℚ) + 1 * (Chunk.new 1 1 1).scale)
                  ((Chunk.new 1 1 1).get 1 0 1)) := by
  refine ⟨⟨by unfold Chunk.inv gridInv; decide, by decide, by decide, by decide⟩, ?_⟩
  exact fill_samples_scaled_field (Chunk.new 1 1 1) (fun a _ _ => a)
    (fun _ _ _ o => o) ⟨2, 3, 4⟩ 1 0 1 (by unfold Chunk.inv gridInv; decide)
    (by decide) (by decide) (by decide)

/-- C10: on a chunk satisfying the dimension invariant, `get` after `set`
at the same in-bounds corner returns the stored value, and `get` at every
other in-bounds corner returns the value held before the `set`. -/
theorem get_after_set (c : Chunk) (x y z : Nat) (v : ℚ) (hc : c.inv)
    (hx : x ≤ c.size_x) (hy : y ≤ c.size_y) (hz : z ≤ c.size_z) :
    (c.set x y z v).get x y z = v
      ∧ ∀ x' y' z', x' ≤ c.size_x → y' ≤ c.size_y → z' ≤ c.size_z →
          ¬(x' = x ∧ y' = y ∧ z' = z) →
          (c.set x y z v).get x' y' z' = c.get x' y' z' := by
  constructor
  · exact cell_setCell_same hc hz hy hx v
  · intro x' y' z' _ _ _ hne
    exact cell_setCell_ne c.values z y x z' y' x' v (by tauto)

/-- Witness for C10 on a concrete 1×1×1 chunk. -/
theorem get_after_set_witness :
    ((Chunk.new 1 1 1).inv ∧ 1 ≤ (Chunk.new 1 1 1).size_x)
      ∧ (((Chunk.new 1 1 1).set 1 0 1 5).get 1 0 1 = 5
          ∧ ∀ x' y' z', x' ≤ (Chunk.new 1 1 1).size_x →
              y' ≤ (Chunk.new 1 1 1).size_y → z' ≤ (Chunk.new 1 1 1).size_z →
              ¬(x' = 1 ∧ y' = 0 ∧ z' = 1) →
              ((Chunk.new 1 1 1).set 1 0 1 5).get x' y' z'
                = (Chunk.new 1 1 1).get x' y' z') := by
  refine ⟨⟨by unfold Chunk.inv gridInv; decide, by decide⟩, ?_⟩
  exact get_after_set (Chunk.new 1 1 1) 1 0 1 5
    (by unfold Chunk.inv gridInv; decide) (by decide) (by decide) (by decide)

/-!
Copy-on-write model of the `Arc<Vec<Vec<Vec<Value>>>>` backing storage
(`chunk.rs::values_mut`, which calls `Arc::make_mut`).  The heap is the
list of allocated grids; a holder of the storage is a pointer (index) into
the heap, and `live` lists the pointers of every live holder (this chunk's
included, once per holder, mirroring the `Arc` strong count).
-/

/-- `Arc::make_mut` semantics: if the chunk's pointer is uniquely held
(strong count ≤ 1) the cell is reused in place; otherwise the grid is
cloned into a fresh cell and the chunk repointed to it. -/
def make_mut (heap : List Grid) (live : List Nat) (p : Nat) :
    List Grid × Nat :=
  if live.count p ≤ 1 then (heap, p)
  else (heap ++ [List.getD heap p []], List.length heap)

/-- Mutation through `values_mut` (`set`'s single-cell write, and the
corner loops of `fill`, `for_each_corner`, `for_each_corner_offset`, all of
which call `values_mut` first): `make_mut`, then the operation's write `f`
applied to the (possibly fresh) cell. -/
def cow_mutate (heap : List Grid) (live : List Nat) (p : Nat)
    (f : Grid → Grid) : List Grid × Nat :=
  let hq := make_mut heap live p
  (List.set hq.1 hq.2 (f (List.getD hq.1 hq.2 [])), hq.2)

/-- C9: when the chunk's backing storage is shared (strong count ≥ 2), any
mutation through the chunk's handle (`set`, `fill`, `for_each_corner`,
`for_each_corner_offset` — any write `f` after `values_mut`) first clones
the storage into a fresh cell, so the grid seen through every pre-existing
pointer is unchanged; when the chunk is the only holder (strong count = 1),
the cell is mutated in place — same pointer, no new allocation. -/
theorem cow_mutate_preserves_other_holders (heap : List Grid)
    (live : List Nat) (p : Nat) (f : Grid → Grid)
    (hp : p < List.length heap) :
    (2 ≤ live.count p →
        (∀ q, q < List.length heap →
            List.getD (cow_mutate heap live p f).1 q []
              = List.getD heap q [])
          ∧ (cow_mutate heap live p f).2 = List.length heap)
      ∧ (live.count p = 1 →
          cow_mutate heap live p f
            = (List.set heap p (f (List.getD heap p [])), p)
            ∧ List.length (cow_mutate heap live p f).1 = List.length heap) := by
  constructor
  · intro hshared
    have hcount : ¬ live.count p ≤ 1 := by omega
    constructor
    · intro q hq
      unfold cow_mutate make_mut
      rw [if_neg hcount]
      simp only
      rw [List.getD_eq_getElem?_getD, List.getElem?_set_ne (by omega),
        List.getElem?_append_left hq, ← List.getD_eq_getElem?_getD]
    · unfold cow_mutate make_mut
      rw [if_neg hcount]
  · intro hunique
    constructor
    · unfold cow_mutate make_mut
      rw [if_pos (by omega)]
    · unfold cow_mutate make_mut
      rw [if_pos (by omega)]
      simp only [List.length_set]

/-- Witness for C9: a two-holder heap (clone path) and a one-holder heap
(in-place path), at a concrete grid and the `set 0 0 0 5` write. -/
theorem cow_mutate_preserves_other_holders_witness :
    ((0 : Nat) < List.length [[[[ (7 : ℚ) ]]]]
        ∧ 2 ≤ List.count 0 [0, 0] ∧ List.count (0 : Nat) [0] = 1)
      ∧ ((∀ q, q < List.length [[[[ (7 : ℚ) ]]]] →
            List.getD (cow_mutate [[[[ (7 : ℚ) ]]]] [0, 0] 0
                (fun g => setCell g 0 0 0 5)).1 q []
              = List.getD [[[[ (7 : ℚ) ]]]] q [])
          ∧ (cow_mutate [[[[ (7 : ℚ) ]]]] [0, 0] 0
              (fun g => setCell g 0 0 0 5)).2 = List.length [[[[ (7 : ℚ) ]]]]
          ∧ cow_mutate [[[[ (7 : ℚ) ]]]] [0] 0 (fun g => setCell g 0 0 0 5)
              = (List.set [[[[ (7 : ℚ) ]]]] 0
                  (setCell (List.getD [[[[ (7 : ℚ) ]]]] 0 []) 0 0 0 5), 0)) := by
  have T1 := cow_mutate_preserves_other_holders [[[[ (7 : ℚ) ]]]] [0, 0] 0
    (fun g => setCell g 0 0 0 5) (by decide)
  have T2 := cow_mutate_preserves_other_holders [[[[ (7 : ℚ) ]]]] [0] 0
    (fun g => setCell g 0 0 0 5) (by decide)
  exact ⟨⟨by decide, by decide, by decide⟩,
    (T1.1 (by decide)).1, (T1.1 (by decide)).2, (T2.2 (by decide)).1⟩

/-!
`mesh.rs`: the mesh builder.  Normals need square roots
(`nalgebra`'s `norm`), so this section is embedded over `ℝ`.
-/

/-- A 3-component vector of `mesh.rs` (`nalgebra` `Point3`/`Vector3`). -/
structure V3 where
  x : ℝ
  y : ℝ
  z : ℝ

/-- Component-wise vector subtraction. -/
def V3.sub (a b : V3) : V3 :=
  ⟨a.x - b.x, a.y - b.y, a.z - b.z⟩

/-- `nalgebra`'s cross product. -/
def V3.cross (a b : V3) : V3 :=
  ⟨a.y * b.z - a.z * b.y, a.z * b.x - a.x * b.z, a.x * b.y - a.y * b.x⟩

/-- `nalgebra`'s Euclidean norm: the square root of the sum of squares. -/
noncomputable def V3.norm (v : V3) : ℝ :=
  Real.sqrt (v.x ^ 2 + v.y ^ 2 + v.z ^ 2)

/-- `mesh.rs::MarchMesh`: flat vertex list (each 3 consecutive vertices one
triangle), triangle index triples, per-vertex normals. -/
structure MarchMesh where
  vertices : List V3
  tris : List (Nat × Nat × Nat)
  normals : List V3

/-- `MarchMesh::tri_normal`: face normal of triangle `tri` — the cross
product of `(b - a)` and `(c - b)` divided by its norm, or the zero vector
when the norm is zero.  Out-of-range indexing (a source panic) defaults to
index 0 / the origin. -/
noncomputable def MarchMesh.tri_normal (m : MarchMesh) (tri : Nat) : V3 :=
  let t := m.tris.getD tri (0, 0, 0)
  let va := m.vertices.getD t.1 ⟨0, 0, 0⟩
  let vb := m.vertices.getD t.2.1 ⟨0, 0, 0⟩
  let vc := m.vertices.getD t.2.2 ⟨0, 0, 0⟩
  let v_a_b := V3.sub vb va
  let v_b_c := V3.sub vc vb
  let cross := V3.cross v_a_b v_b_c
  let nrm := cross.norm
  if nrm = 0 then ⟨0, 0, 0⟩
  else ⟨cross.x / nrm, cross.y / nrm, cross.z / nrm⟩

/-- `MarchMesh::create_normals`: clears the normal buffer, then for each
triangle pushes its face normal once per vertex (three times). -/
noncomputable def MarchMesh.create_normals (m : MarchMesh) : MarchMesh :=
  let ns := (List.range m.tris.length).foldl
    (fun acc tri => acc ++ [m.tri_normal tri, m.tri_normal tri, m.tri_normal tri]) []
  { m with normals := ns }

/-- The spec's `normalize` with zero-fallback: `v / ‖v‖`, or the zero
vector when `v` has zero length. -/
noncomputable def specNormalize (v : V3) : V3 :=
  if v.norm = 0 then ⟨0, 0, 0⟩ else ⟨v.x / v.norm, v.y / v.norm, v.z / v.norm⟩

lemma V3.norm_eq_zero_iff (v : V3) : v.norm = 0 ↔ v = ⟨0, 0, 0⟩ := by
  unfold V3.norm
  constructor
  · intro h
    rw [Real.sqrt_eq_zero (by positivity)] at h
    have hx : v.x = 0 := by nlinarith [sq_nonneg v.x, sq_nonneg v.y, sq_nonneg v.z]
    have hy : v.y = 0 := by nlinarith [sq_nonneg v.x, sq_nonneg v.y, sq_nonneg v.z]
    have hz : v.z = 0 := by nlinarith [sq_nonneg v.x, sq_nonneg v.y, sq_nonneg v.z]
    cases v
    simp_all
  · intro h
    rw [h]
    simp [Real.sqrt_eq_zero]

lemma normalsLoop_spec (f : Nat → V3) (n : Nat) :
    ((List.range n).foldl (fun acc t => acc ++ [f t, f t, f t]) []).length = 3 * n
      ∧ ∀ t j, t < n → j < 3 →
          ((List.range n).foldl
              (fun acc t => acc ++ [f t, f t, f t]) []).getD (3 * t + j) ⟨1, 1, 1⟩
            = f t := by
  induction n with
  | zero => exact ⟨rfl, fun t j ht _ => absurd ht (by omega)⟩
  | succ n ih =>
      obtain ⟨ihLen, ihGet⟩ := ih
      rw [List.range_succ, List.foldl_append, List.foldl_cons, List.foldl_nil]
      constructor
      · rw [List.length_append, ihLen]
        simp
        omega
      · intro t j ht hj
        by_cases htn : t < n
        · rw [List.getD_eq_getElem?_getD,
            List.getElem?_append_left (by rw [ihLen]; omega),
            ← List.getD_eq_getElem?_getD]
          exact ihGet t j htn hj
        · have hteq : t = n := by omega
          subst hteq
          rw [List.getD_eq_getElem?_getD,
            List.getElem?_append_right (by rw [ihLen]; omega)]
          rw [ihLen]
          have : 3 * t + j - 3 * t = j := by omega
          rw [this]
          interval_cases j
          · rfl
          · rfl
          · rfl

/-- C5: for every triangle `(a, b, c)` taken in vertex order, the computed
normal equals `normalize((b - a) × (c - b))` (spec-side `specNormalize`);
when the cross product has zero length the normal is the zero vector (and
it is unit length otherwise); and `create_normals` stores the same face
normal once per each of the triangle's 3 vertices — exactly one normal per
vertex when the vertex buffer is triangle-grouped. -/
theorem tri_normal_flat_shading (m : MarchMesh) (t : Nat)
    (ht : t < m.tris.length) :
    m.tri_normal t
        = specNormalize (V3.cross
            (V3.sub (m.vertices.getD (m.tris.getD t (0, 0, 0)).2.1 ⟨0, 0, 0⟩)
              (m.vertices.getD (m.tris.getD t (0, 0, 0)).1 ⟨0, 0, 0⟩))
            (V3.sub (m.vertices.getD (m.tris.getD t (0, 0, 0)).2.2 ⟨0, 0, 0⟩)
              (m.vertices.getD (m.tris.getD t (0, 0, 0)).2.1 ⟨0, 0, 0⟩)))
      ∧ (V3.cross
            (V3.sub (m.vertices.getD (m.tris.getD t (0, 0, 0)).2.1 ⟨0, 0, 0⟩)
              (m.vertices.getD (m.tris.getD t (0, 0, 0)).1 ⟨0, 0, 0⟩))
            (V3.sub (m.vertices.getD (m.tris.getD t (0, 0, 0)).2.2 ⟨0, 0, 0⟩)
              (m.vertices.getD (m.tris.getD t (0, 0, 0)).2.1 ⟨0, 0, 0⟩))
            = ⟨0, 0, 0⟩ → m.tri_normal t = ⟨0, 0, 0⟩)
      ∧ (V3.cross
            (V3.sub (m.vertices.getD (m.tris.getD t (0, 0, 0)).2.1 ⟨0, 0, 0⟩)
              (m.vertices.getD (m.tris.getD t (0, 0, 0)).1 ⟨0, 0, 0⟩))
            (V3.sub (m.vertices.getD (m.tris.getD t (0, 0, 0)).2.2 ⟨0, 0, 0⟩)
              (m.vertices.getD (m.tris.getD t (0, 0, 0)).2.1 ⟨0, 0, 0⟩))
            ≠ ⟨0, 0, 0⟩ → (m.tri_normal t).norm = 1)
      ∧ (m.create_normals).normals.length = 3 * m.tris.length
      ∧ (3 * m.tris.length = m.vertices.length →
          (m.create_normals).normals.length = m.vertices.length)
      ∧ ∀ j, j < 3 →
          (m.create_normals).normals.getD (3 * t + j) ⟨1, 1, 1⟩
            = m.tri_normal t := by
  set cr := V3.cross
    (V3.sub (m.vertices.getD (m.tris.getD t (0, 0, 0)).2.1 ⟨0, 0, 0⟩)
      (m.vertices.getD (m.tris.getD t (0, 0, 0)).1 ⟨0, 0, 0⟩))
    (V3.sub (m.vertices.getD (m.tris.getD t (0, 0, 0)).2.2 ⟨0, 0, 0⟩)
      (m.vertices.getD (m.tris.getD t (0, 0, 0)).2.1 ⟨0, 0, 0⟩)) with hcr
  have hnorm := V3.norm_eq_zero_iff cr
  have htn : m.tri_normal t
      = if cr.norm = 0 then (⟨0, 0, 0⟩ : V3)
        else ⟨cr.x / cr.norm, cr.y / cr.norm, cr.z / cr.norm⟩ := by
    rw [MarchMesh.tri_normal]
  have hloop := normalsLoop_spec (fun tri => m.tri_normal tri) m.tris.length
  have hcn : (m.create_normals).normals
      = (List.range m.tris.length).foldl
          (fun acc tri => acc ++ [m.tri_normal tri, m.tri_normal tri, m.tri_normal tri])
          [] := rfl
  refine ⟨?_, ?_, ?_, by rw [hcn]; exact hloop.1,
    fun h => by rw [hcn, hloop.1, h],
    fun j hj => by rw [hcn]; exact hloop.2 t j ht hj⟩
  · rw [htn, specNormalize]
  · intro hzero
    rw [htn, if_pos (hnorm.mpr hzero)]
  · intro hnz
    have hn0 : cr.norm ≠ 0 := fun h => hnz (hnorm.mp h)
    rw [htn, if_neg hn0]
    have hpos : 0 < cr.norm := by
      rcases lt_or_eq_of_le (Real.sqrt_nonneg (cr.x ^ 2 + cr.y ^ 2 + cr.z ^ 2)) with h | h
      · exact h
      · exact absurd h.symm hn0
    have hs : cr.norm ^ 2 = cr.x ^ 2 + cr.y ^ 2 + cr.z ^ 2 :=
      Real.sq_sqrt (by positivity)
    show Real.sqrt ((cr.x / cr.norm) ^ 2 + (cr.y / cr.norm) ^ 2
      + (cr.z / cr.norm) ^ 2) = 1
    have hdiv : (cr.x / cr.norm) ^ 2 + (cr.y / cr.norm) ^ 2
        + (cr.z / cr.norm) ^ 2 = 1 := by
      field_simp
      rw [← hs]
    rw [hdiv, Real.sqrt_one]

/-- Witness for C5 on a concrete one-triangle, fully degenerate mesh. -/
theorem tri_normal_flat_shading_witness :
    ((0 : Nat) < (MarchMesh.mk [⟨0, 0, 0⟩] [(0, 0, 0)] []).tris.length)
      ∧ ((MarchMesh.mk [⟨0, 0, 0⟩] [(0, 0, 0)] []).create_normals.normals.length
          = 3 * (MarchMesh.mk [⟨0, 0, 0⟩] [(0, 0, 0)] []).tris.length) := by
  constructor
  · decide
  · exact (tri_normal_flat_shading (MarchMesh.mk [⟨0, 0, 0⟩] [(0, 0, 0)] []) 0
      (by decide)).2.2.2.1

/-!
`plugin.rs::run_marching_cubes`: the slab extraction.  The static lookup
tables (`tables.rs`: `EDGE_TABLE`, `TRI_TABLE`, `CORNER_POINT_INDICES`) are
not under `src/`, so each definition takes them as explicit read-only
parameters; every theorem below holds for arbitrary table contents.
-/

/-- `utils.rs::add_points`: component-wise point addition. -/
def add_points (p1 p2 : Pt) : Pt :=
  ⟨p1.x + p2.x, p1.y + p2.y, p1.z + p2.z⟩

/-- `utils.rs::get_corner_positions`: the world-space positions of the 8
corners of voxel `(x, y, z)`, in the fixed corner order, translated by
`min_point` (the plugin's revision calls this without a `min_point`, i.e.
with origin `(0,0,0)`). -/
def get_corner_positions (min_point : Pt) (x y z : Nat) (scale : ℚ) :
    List Pt :=
  let xf := scale * (x : ℚ)
  let yf := scale * (y : ℚ)
  let zf := scale * (z : ℚ)
  let corner_points : List Pt :=
    [⟨xf, yf, zf⟩, ⟨xf + scale, yf, zf⟩, ⟨xf + scale, yf + scale, zf⟩,
      ⟨xf, yf + scale, zf⟩, ⟨xf, yf, zf + scale⟩, ⟨xf + scale, yf, zf + scale⟩,
      ⟨xf + scale, yf + scale, zf + scale⟩, ⟨xf, yf + scale, zf + scale⟩]
  corner_points.map (fun p => add_points p min_point)

/-- `plugin.rs::voxel_corner_indices`: the 8 corner indices `(x, y, z)` of
the voxel at `(x, y, z)`, in the fixed marching-cubes corner order. -/
def voxel_corner_indices (x y z : Nat) : List (Nat × Nat × Nat) :=
  [(x, y, z), (x + 1, y, z), (x + 1, y + 1, z), (x, y + 1, z),
    (x, y, z + 1), (x + 1, y, z + 1), (x + 1, y + 1, z + 1), (x, y + 1, z + 1)]

/-- Modelled from the spec: the mask-based `get_edge_midpoints` revision
called by `plugin.rs::run_marching_cubes` is not under `src/`.  Per spec
§4.2 step 4, for each of the 12 edges whose bit is set in `edge_mask` it
fetches the edge's endpoint corner indices from the endpoint table,
computes `t = (threshold - v0) / (v1 - v0)` and the component-wise lerp,
and stores the point keyed by the edge index (the `utils.rs` loop body is
reused for the per-edge computation). -/
def get_edge_midpoints_mask (edge_mask : Nat) (point_indices : List (Nat × Nat))
    (corner_positions : List Pt) (corner_values : List ℚ) (threshold : ℚ) :
    List (Nat × List ℚ) :=
  let edges_to_use := (List.range 12).filter (fun i => edge_mask.testBit i)
  get_edge_midpoints (edges_to_use.map (fun e => point_indices.getD e (0, 0)))
    edges_to_use corner_positions corner_values threshold

/-- The per-voxel body of `plugin.rs::run_marching_cubes` (steps 1-6 of its
doc comment): corner positions, corner values, state, edge mask, edge
midpoints, triangle vertices.  `get_state`'s `.expect` cannot fire (the
corner list has length 8); its error branch is given the (unreachable)
state 0. -/
def processVoxel (edgeTable : List Nat) (cpi : List (Nat × Nat))
    (triTable : List (List Int)) (scale threshold : ℚ) (values : Grid)
    (x y z : Nat) : List Pt :=
  let corner_positions := get_corner_positions ⟨0, 0, 0⟩ x y z scale
  let eval_corners := (voxel_corner_indices x y z).map
    (fun c => cell values c.2.2 c.2.1 c.1)
  let state := match get_state eval_corners threshold with
    | Except.ok s => s
    | Except.error _ => 0
  let edges_mask := edgeTable.getD state 0
  let edge_points := get_edge_midpoints_mask edges_mask cpi corner_positions
    eval_corners threshold
  triangle_verts_from_state edge_points (triTable.getD state [])

/-- One X-slab of `run_marching_cubes`: the slab's private vertex list,
iterating its full `size_y × size_z` voxels locally. -/
def sliceVerts (edgeTable : List Nat) (cpi : List (Nat × Nat))
    (triTable : List (List Int)) (scale threshold : ℚ) (values : Grid)
    (size_y size_z x : Nat) : List Pt :=
  (List.range size_y).foldl (fun acc y =>
    (List.range size_z).foldl (fun acc2 z =>
      acc2 ++ processVoxel edgeTable cpi triTable scale threshold values x y z)
      acc) []

/-- `plugin.rs::run_marching_cubes`: the parallel map over X slices
(`into_par_iter().map(..).collect()` keeps ascending slice order — rayon's
indexed collect is deterministic), followed by the merge loop appending the
slab outputs in ascending X order into one vertex buffer. -/
def run_marching_cubes (edgeTable : List Nat) (cpi : List (Nat × Nat))
    (triTable : List (List Int)) (size_x size_y size_z : Nat)
    (scale threshold : ℚ) (values : Grid) : List Pt :=
  let per_x := (List.range size_x).map
    (fun x => sliceVerts edgeTable cpi triTable scale threshold values
      size_y size_z x)
  per_x.foldl (fun acc v => acc ++ v) []

/-- Modelled from the spec: the single-threaded sequential reference pass —
one vertex buffer, all voxels visited in `x, y, z` loop order, each voxel's
triangle vertices appended as they are produced. -/
def sequential_march (edgeTable : List Nat) (cpi : List (Nat × Nat))
    (triTable : List (List Int)) (size_x size_y size_z : Nat)
    (scale threshold : ℚ) (values : Grid) : List Pt :=
  (List.range size_x).foldl (fun acc x =>
    (List.range size_y).foldl (fun acc2 y =>
      (List.range size_z).foldl (fun acc3 z =>
        acc3 ++ processVoxel edgeTable cpi triTable scale threshold values x y z)
        acc2) acc) []

lemma foldl_init_append {α β : Type} (step : List β → α → List β)
    (hstep : ∀ a x, step a x = a ++ step [] x) (l : List α) :
    ∀ a, l.foldl step a = a ++ l.foldl step [] := by
  induction l with
  | nil => intro a; simp
  | cons x xs ih =>
      intro a
      rw [List.foldl_cons, List.foldl_cons, ih (step a x), ih (step [] x),
        hstep a x, List.append_assoc]

lemma concat_map_fold {α β : Type} (f : α → List β) (l : List α) :
    ∀ a, (l.map f).foldl (fun acc v => acc ++ v) a
      = l.foldl (fun acc x => acc ++ f x) a := by
  induction l with
  | nil => intro a; rfl
  | cons x xs ih => intro a; rw [List.map_cons, List.foldl_cons, List.foldl_cons, ih]

/-- C4: for every grid (same values, scale, threshold) and any table
contents, the slab-parallel extraction — parallel map over X slices merged
in ascending slice order — produces exactly the final vertex buffer of the
single-threaded sequential pass over the same grid (and, being a pure
function of its inputs, the result is reproducible for identical input). -/
theorem run_marching_cubes_eq_sequential (edgeTable : List Nat)
    (cpi : List (Nat × Nat)) (triTable : List (List Int))
    (size_x size_y size_z : Nat) (scale threshold : ℚ) (values : Grid) :
    run_marching_cubes edgeTable cpi triTable size_x size_y size_z scale
        threshold values
      = sequential_march edgeTable cpi triTable size_x size_y size_z scale
          threshold values := by
  unfold run_marching_cubes sequential_march sliceVerts
  rw [concat_map_fold]
  have hz : ∀ x y (a : List Pt),
      (List.range size_z).foldl (fun acc2 z =>
        acc2 ++ processVoxel edgeTable cpi triTable scale threshold values x y z)
        a
        = a ++ (List.range size_z).foldl (fun acc2 z =>
            acc2 ++ processVoxel edgeTable cpi triTable scale threshold values
              x y z) [] := by
    intro x y a
    exact foldl_init_append _ (fun a' z => by rw [List.nil_append]) _ a
  have hy : ∀ x (a : List Pt),
      (List.range size_y).foldl (fun acc y =>
        (List.range size_z).foldl (fun acc2 z =>
          acc2 ++ processVoxel edgeTable cpi triTable scale threshold values
            x y z) acc) a
        = a ++ (List.range size_y).foldl (fun acc y =>
            (List.range size_z).foldl (fun acc2 z =>
              acc2 ++ processVoxel edgeTable cpi triTable scale threshold values
                x y z) acc) [] := by
    intro x a
    refine foldl_init_append _ (fun a' y => ?_) _ a
    rw [hz x y a']
  have hfun : (fun (acc : List Pt) x =>
        acc ++ (List.range size_y).foldl (fun acc2 y =>
          (List.range size_z).foldl (fun acc3 z =>
            acc3 ++ processVoxel edgeTable cpi triTable scale threshold values
              x y z) acc2) [])
      = (fun (acc : List Pt) x =>
          (List.range size_y).foldl (fun acc2 y =>
            (List.range size_z).foldl (fun acc3 z =>
              acc3 ++ processVoxel edgeTable cpi triTable scale threshold values
                x y z) acc2) acc) := by
    funext acc x
    rw [hy x acc]
  rw [hfun]

end MarchingCubes
